import Mathlib

/-!
Verification of the AEAD orchestration layer `CordAesGcmBoringSsl`
(`cc/aead/internal/cord_aes_gcm_boringssl.h`): key validation at
construction, ciphertext framing `nonce ‖ body ‖ tag`, and authenticated
decryption with tamper detection, over ropes (segmented byte sequences,
`absl::Cord`).

Only the class declaration is available in source form; the behaviour of
`New`, `Encrypt` and `Decrypt` is modelled from the specification.  The
underlying AES-GCM primitive is out of scope of the specification
("assumed correct ... provided by a vetted cryptographic primitives
library", to be "modelled as an injected interface"); it is modelled here
as an idealized AEAD primitive: a deterministic CTR keystream that is a
function of key, nonce and byte position, and a perfectly binding
authentication tag, i.e. a tag that determines nonce, associated data and
ciphertext body uniquely for a fixed key.
-/

namespace Tink

/-- A logical byte sequence.  A byte is modelled as a natural number; a
well-formed byte is `< 256`. -/
abbrev Bytes := List Nat

/-- A rope (`absl::Cord`): an ordered sequence of byte chunks standing for
the single logical byte sequence obtained by concatenating the chunks. -/
abbrev Rope := List Bytes

/-- The logical byte sequence a rope stands for. -/
def ropeBytes (r : Rope) : Bytes := r.flatten

/-- Every byte of the sequence is a well-formed (8-bit) byte. -/
def ValidBytes (bs : Bytes) : Prop := ∀ b ∈ bs, b < 256

instance (bs : Bytes) : Decidable (ValidBytes bs) :=
  inferInstanceAs (Decidable (∀ b ∈ bs, b < 256))

instance {ε α : Type} [DecidableEq ε] [DecidableEq α] : DecidableEq (Except ε α)
  | .ok a, .ok b =>
      if h : a = b then .isTrue (by rw [h]) else .isFalse (by simp [h])
  | .error a, .error b =>
      if h : a = b then .isTrue (by rw [h]) else .isFalse (by simp [h])
  | .ok _, .error _ => .isFalse (by simp)
  | .error _, .ok _ => .isFalse (by simp)

/-- Error kinds of the AEAD engine (`util::Status` error codes in the
source; names follow the specification's error taxonomy). -/
inductive AeadError where
  | invalidKeySize
  | malformedCiphertext
  | authenticationFailure
  deriving DecidableEq, Repr

/-- Modelled from the spec: an injective numeric code of a well-formed
byte sequence (injective on sequences whose bytes are `< 256`), used to
build the idealized primitive's keystream and tag. -/
def encodeBytes : Bytes → Nat
  | [] => 0
  | b :: bs => 1 + b + 256 * encodeBytes bs

/-- Modelled from the spec: the byte of the idealized AES-CTR keystream at
position `i`, a deterministic function of key, nonce and position. -/
def keystream (key nonce : Bytes) (i : Nat) : Nat :=
  Nat.pair (encodeBytes key) (Nat.pair (encodeBytes nonce) i) % 256

/-- Xor a byte sequence with the keystream, starting at position `i`.
This is the rope-to-cipher-stream adaptation: byte order is exactly
preserved and no bytes are dropped, duplicated, or reordered. -/
def xorKeystream (key nonce : Bytes) : Nat → Bytes → Bytes
  | _, [] => []
  | i, b :: bs => (b ^^^ keystream key nonce i) :: xorKeystream key nonce (i + 1) bs

/-- Modelled from the spec: GCM encryption of the plaintext body: xor with
the keystream (GCM is a stream cipher mode, ciphertext length equals
plaintext length, no padding). -/
def encryptBody (key nonce p : Bytes) : Bytes := xorKeystream key nonce 0 p

/-- Modelled from the spec: GCM decryption of the ciphertext body,
the inverse xor stream. -/
def decryptBody (key nonce c : Bytes) : Bytes := xorKeystream key nonce 0 c

/-- Modelled from the spec: the idealized 16-byte authentication tag,
computed by the cipher primitive over ciphertext and associated data
(and bound to key and nonce).  The first entry carries an injective code
of `(key, nonce, associatedData, body)` — the idealization of a tag the
spec assumes unforgeable — followed by 15 zero bytes. -/
def gcmTag (key nonce ad body : Bytes) : Bytes :=
  Nat.pair (encodeBytes key)
      (Nat.pair (encodeBytes nonce) (Nat.pair (encodeBytes ad) (encodeBytes body)))
    :: List.replicate 15 0

/-- The AEAD engine of `cord_aes_gcm_boringssl.h`: holds the validated
key (the cached cipher selector of the source is determined by the key
length and needs no separate field in the model). -/
structure CordAesGcmBoringSsl where
  key : Bytes
  deriving DecidableEq, Repr

namespace CordAesGcmBoringSsl

/-- Size of the IV (nonce), from the source header. -/
def kIvSizeInBytes : Nat := 12

/-- Size of the authentication tag, from the source header. -/
def kTagSizeInBytes : Nat := 16

/-- Modelled from the spec: `New(keyBytes)` fails with `InvalidKeySize`
unless the key length is exactly 16 or 32 bytes. -/
def New (keyValue : Bytes) : Except AeadError CordAesGcmBoringSsl :=
  if keyValue.length = 16 ∨ keyValue.length = 32 then .ok ⟨keyValue⟩
  else .error .invalidKeySize

/-- Modelled from the spec: the frame returned by a successful `Encrypt`
with the given (injected) nonce: `nonce ‖ ciphertext body ‖ tag`.  Chunk
granularity of the output is not part of the contract; the model returns
the logical byte sequence. -/
def EncryptFrame (c : CordAesGcmBoringSsl) (nonce : Bytes) (plaintext : Rope)
    (additionalData : Bytes) : Bytes :=
  let body := encryptBody c.key nonce (ropeBytes plaintext)
  nonce ++ (body ++ gcmTag c.key nonce additionalData body)

/-- Modelled from the spec: `Encrypt` with an injected nonce source
(the spec directs that the random nonce source be modelled as an injected
dependency); encryption of validly-constructed inputs cannot fail. -/
def Encrypt (c : CordAesGcmBoringSsl) (nonce : Bytes) (plaintext : Rope)
    (additionalData : Bytes) : Except AeadError Bytes :=
  .ok (c.EncryptFrame nonce plaintext additionalData)

/-- The nonce slice of a frame: its first 12 bytes. -/
def parseNonce (ct : Bytes) : Bytes := ct.take kIvSizeInBytes

/-- The ciphertext-body slice of a frame: the middle, between nonce and tag. -/
def parseBody (ct : Bytes) : Bytes :=
  (ct.drop kIvSizeInBytes).take (ct.length - (kIvSizeInBytes + kTagSizeInBytes))

/-- The tag slice of a frame: its last 16 bytes. -/
def parseTagBytes (ct : Bytes) : Bytes := ct.drop (ct.length - kTagSizeInBytes)

/-- Modelled from the spec: `Decrypt` rejects frames shorter than
28 bytes as `MalformedCiphertext`, slices the frame into nonce, body and
tag, streams the body through the cipher to obtain the candidate
plaintext, and releases the candidate only if the recomputed tag equals
the extracted tag, reporting `AuthenticationFailure` otherwise. -/
def Decrypt (c : CordAesGcmBoringSsl) (ciphertext : Rope)
    (additionalData : Bytes) : Except AeadError Bytes :=
  let ct := ropeBytes ciphertext
  if ct.length < kIvSizeInBytes + kTagSizeInBytes then
    .error .malformedCiphertext
  else
    let nonce := parseNonce ct
    let body := parseBody ct
    let candidate := decryptBody c.key nonce body
    if gcmTag c.key nonce additionalData body = parseTagBytes ct then
      .ok candidate
    else
      .error .authenticationFailure

end CordAesGcmBoringSsl

/-- A single-bit flip at byte index `i`, bit index `j`, modelling frame
tampering; out-of-range indices leave the sequence unchanged. -/
def flipBit : Bytes → Nat → Nat → Bytes
  | [], _, _ => []
  | b :: bs, 0, j => (b ^^^ 2 ^ j) :: bs
  | b :: bs, i + 1, j => b :: flipBit bs i j

/-! Basic facts about the primitive model. -/

theorem keystream_lt (key nonce : Bytes) (i : Nat) : keystream key nonce i < 256 :=
  Nat.mod_lt _ (by norm_num)

theorem xor_lt_256 {a c : Nat} (ha : a < 256) (hc : c < 256) : a ^^^ c < 256 := by
  have h : (256 : Nat) = 2 ^ 8 := by norm_num
  rw [h] at ha hc ⊢
  exact Nat.xor_lt_two_pow ha hc

theorem two_pow_lt_256 {j : Nat} (hj : j < 8) : 2 ^ j < 256 := by
  calc 2 ^ j < 2 ^ 8 := Nat.pow_lt_pow_right (by norm_num) hj
    _ = 256 := by norm_num

theorem xorKeystream_length (key nonce : Bytes) :
    ∀ (i : Nat) (bs : Bytes), (xorKeystream key nonce i bs).length = bs.length
  | _, [] => rfl
  | i, _ :: bs => by
      simp [xorKeystream, xorKeystream_length key nonce (i + 1) bs]

theorem xorKeystream_xorKeystream (key nonce : Bytes) :
    ∀ (i : Nat) (bs : Bytes), xorKeystream key nonce i (xorKeystream key nonce i bs) = bs
  | _, [] => rfl
  | i, b :: bs => by
      simp [xorKeystream, Nat.xor_cancel_right,
        xorKeystream_xorKeystream key nonce (i + 1) bs]

theorem xorKeystream_valid (key nonce : Bytes) :
    ∀ (i : Nat) (bs : Bytes), ValidBytes bs → ValidBytes (xorKeystream key nonce i bs)
  | _, [], hv => hv
  | i, b :: bs, hv => by
      intro x hx
      simp only [xorKeystream] at hx
      rcases List.mem_cons.mp hx with h | h
      · subst h
        exact xor_lt_256 (hv b (List.mem_cons_self b bs)) (keystream_lt key nonce i)
      · exact xorKeystream_valid key nonce (i + 1) bs
          (fun y hy => hv y (List.mem_cons_of_mem _ hy)) x h

theorem decryptBody_encryptBody (key nonce p : Bytes) :
    decryptBody key nonce (encryptBody key nonce p) = p :=
  xorKeystream_xorKeystream key nonce 0 p

theorem encryptBody_length (key nonce p : Bytes) :
    (encryptBody key nonce p).length = p.length :=
  xorKeystream_length key nonce 0 p

theorem encryptBody_valid (key nonce : Bytes) {p : Bytes} (hv : ValidBytes p) :
    ValidBytes (encryptBody key nonce p) :=
  xorKeystream_valid key nonce 0 p hv

theorem encodeBytes_injOn : ∀ {xs ys : Bytes}, ValidBytes xs → ValidBytes ys →
    encodeBytes xs = encodeBytes ys → xs = ys
  | [], [], _, _, _ => rfl
  | [], _ :: _, _, _, h => by simp only [encodeBytes] at h; omega
  | _ :: _, [], _, _, h => by simp only [encodeBytes] at h; omega
  | a :: as, b :: bs, hx, hy, h => by
      simp only [encodeBytes] at h
      have ha : a < 256 := hx a (List.mem_cons_self a as)
      have hb : b < 256 := hy b (List.mem_cons_self b bs)
      have hab : a = b ∧ encodeBytes as = encodeBytes bs := by omega
      have htl : as = bs :=
        encodeBytes_injOn (fun y hy' => hx y (List.mem_cons_of_mem _ hy'))
          (fun y hy' => hy y (List.mem_cons_of_mem _ hy')) hab.2
      rw [hab.1, htl]

theorem gcmTag_length (key nonce ad body : Bytes) : (gcmTag key nonce ad body).length = 16 := by
  simp [gcmTag]

theorem gcmTag_inj {key n₁ n₂ a₁ a₂ b₁ b₂ : Bytes}
    (hn₁ : ValidBytes n₁) (hn₂ : ValidBytes n₂) (ha₁ : ValidBytes a₁) (ha₂ : ValidBytes a₂)
    (hb₁ : ValidBytes b₁) (hb₂ : ValidBytes b₂)
    (h : gcmTag key n₁ a₁ b₁ = gcmTag key n₂ a₂ b₂) : n₁ = n₂ ∧ a₁ = a₂ ∧ b₁ = b₂ := by
  simp only [gcmTag, List.cons.injEq, and_true] at h
  rw [Nat.pair_eq_pair] at h
  rw [Nat.pair_eq_pair] at h
  obtain ⟨-, h1, h2⟩ := h
  rw [Nat.pair_eq_pair] at h2
  exact ⟨encodeBytes_injOn hn₁ hn₂ h1, encodeBytes_injOn ha₁ ha₂ h2.1,
    encodeBytes_injOn hb₁ hb₂ h2.2⟩

/-! Frame slicing: a frame assembled as `nonce ‖ body ‖ tag` is sliced
back into exactly those three parts. -/

namespace CordAesGcmBoringSsl

theorem frame_length {nonce tg : Bytes} (body : Bytes)
    (hn : nonce.length = 12) (ht : tg.length = 16) :
    (nonce ++ (body ++ tg)).length = body.length + 28 := by
  simp [hn, ht]; omega

theorem parseNonce_frame {nonce : Bytes} (body tg : Bytes) (hn : nonce.length = 12) :
    parseNonce (nonce ++ (body ++ tg)) = nonce := by
  simp only [parseNonce, kIvSizeInBytes]
  exact List.take_left' hn

theorem parseBody_frame {nonce tg : Bytes} (body : Bytes)
    (hn : nonce.length = 12) (ht : tg.length = 16) :
    parseBody (nonce ++ (body ++ tg)) = body := by
  simp only [parseBody, kIvSizeInBytes, kTagSizeInBytes, frame_length body hn ht]
  rw [List.drop_left' hn]
  have h : body.length + 28 - (12 + 16) = body.length := by omega
  rw [h]
  exact List.take_left' rfl

theorem parseTagBytes_frame {nonce tg : Bytes} (body : Bytes)
    (hn : nonce.length = 12) (ht : tg.length = 16) :
    parseTagBytes (nonce ++ (body ++ tg)) = tg := by
  simp only [parseTagBytes, kTagSizeInBytes, frame_length body hn ht]
  rw [← List.append_assoc]
  exact List.drop_left' (by simp [hn]; omega)

/-- `Decrypt` on a well-formed frame: slices it, recomputes the tag over
the extracted nonce and body, and releases the decrypted body only on a
tag match. -/
theorem Decrypt_frame_eq (c : CordAesGcmBoringSsl) {nonce : Bytes} (body tg ad : Bytes)
    (hn : nonce.length = 12) (ht : tg.length = 16) :
    c.Decrypt [nonce ++ (body ++ tg)] ad =
      if gcmTag c.key nonce ad body = tg then .ok (decryptBody c.key nonce body)
      else .error .authenticationFailure := by
  have hrope : ropeBytes [nonce ++ (body ++ tg)] = nonce ++ (body ++ tg) := by
    simp [ropeBytes]
  simp only [Decrypt, hrope]
  rw [if_neg (by rw [frame_length body hn ht]; simp [kIvSizeInBytes, kTagSizeInBytes])]
  rw [parseNonce_frame body tg hn, parseBody_frame body hn ht,
    parseTagBytes_frame body hn ht]

end CordAesGcmBoringSsl

/-! Facts about single-bit flips. -/

theorem flipBit_length : ∀ (bs : Bytes) (i j : Nat), (flipBit bs i j).length = bs.length
  | [], _, _ => rfl
  | _ :: _, 0, _ => rfl
  | _ :: bs, i + 1, j => by simp [flipBit, flipBit_length bs i j]

theorem flipBit_append_left {l₁ : Bytes} (l₂ : Bytes) {i : Nat} (j : Nat)
    (h : i < l₁.length) :
    flipBit (l₁ ++ l₂) i j = flipBit l₁ i j ++ l₂ := by
  induction l₁ generalizing i with
  | nil => simp at h
  | cons b bs ih =>
    cases i with
    | zero => rfl
    | succ i =>
      simp only [List.cons_append, flipBit, List.append_eq]
      rw [ih (by simpa using h)]

theorem flipBit_append_right (l₁ : Bytes) {l₂ : Bytes} (k j : Nat) :
    flipBit (l₁ ++ l₂) (l₁.length + k) j = l₁ ++ flipBit l₂ k j := by
  induction l₁ with
  | nil => simp
  | cons b bs ih =>
    have h : (b :: bs).length + k = (bs.length + k) + 1 := by simp; omega
    rw [h]
    simp only [List.cons_append, flipBit, List.append_eq]
    rw [ih]

theorem flipBit_ne {l : Bytes} {i : Nat} (j : Nat) (h : i < l.length) :
    flipBit l i j ≠ l := by
  induction l generalizing i with
  | nil => simp at h
  | cons b bs ih =>
    cases i with
    | zero =>
      simp only [flipBit, ne_eq, List.cons.injEq, and_true, not_and]
      intro hb
      have h2 : 2 ^ j = 0 := by
        have h3 : b ^^^ (b ^^^ 2 ^ j) = b ^^^ b := by rw [hb]
        rwa [Nat.xor_cancel_left, Nat.xor_self] at h3
      have := Nat.pos_pow_of_pos j (show 0 < 2 by norm_num)
      omega
    | succ i =>
      simp only [flipBit, ne_eq, List.cons.injEq, true_and]
      exact ih (by simpa using h)

theorem flipBit_valid {j : Nat} (hj : j < 8) :
    ∀ (l : Bytes) (i : Nat), ValidBytes l → ValidBytes (flipBit l i j)
  | [], _, hv => hv
  | b :: bs, 0, hv => by
      intro x hx
      simp only [flipBit] at hx
      rcases List.mem_cons.mp hx with h | h
      · subst h
        exact xor_lt_256 (hv b (List.mem_cons_self b bs)) (two_pow_lt_256 hj)
      · exact hv x (List.mem_cons_of_mem _ h)
  | b :: bs, i + 1, hv => by
      intro x hx
      simp only [flipBit] at hx
      rcases List.mem_cons.mp hx with h | h
      · rw [h]
        exact hv b (List.mem_cons_self b bs)
      · exact flipBit_valid hj bs i (fun y hy => hv y (List.mem_cons_of_mem _ hy)) x h

/-! The claims. -/

/-- C5: `New(keyBytes)` returns `Error(InvalidKeySize)` for every key whose
length is not exactly 16 or 32 bytes, and succeeds, yielding an engine
holding exactly that key, for every key of length exactly 16 or 32. -/
theorem C5_key_size_validation (key : Bytes) :
    (¬(key.length = 16 ∨ key.length = 32) →
      CordAesGcmBoringSsl.New key = .error .invalidKeySize) ∧
    ((key.length = 16 ∨ key.length = 32) →
      CordAesGcmBoringSsl.New key = .ok ⟨key⟩) := by
  constructor
  · intro h
    simp [CordAesGcmBoringSsl.New, h]
  · intro h
    simp [CordAesGcmBoringSsl.New, h]

/-- Witness for C5: a 15-byte key is rejected with `InvalidKeySize`; a
16-byte key yields an engine holding that key. -/
theorem C5_key_size_validation_witness :
    CordAesGcmBoringSsl.New (List.replicate 15 7) = .error .invalidKeySize ∧
    CordAesGcmBoringSsl.New (List.replicate 16 7) = .ok ⟨List.replicate 16 7⟩ :=
  ⟨(C5_key_size_validation (List.replicate 15 7)).1 (by decide),
   (C5_key_size_validation (List.replicate 16 7)).2 (by decide)⟩

/-- C6: `Decrypt` returns `Error(MalformedCiphertext)` on every input rope
whose total byte length is strictly less than 28 = 12 (nonce) + 16 (tag),
including the empty rope, for every associated data; the early return
precedes any use of the cipher. -/
theorem C6_minimum_length (e : CordAesGcmBoringSsl) (c : Rope) (ad : Bytes)
    (h : (ropeBytes c).length < 28) :
    e.Decrypt c ad = .error .malformedCiphertext := by
  simp only [CordAesGcmBoringSsl.Decrypt, CordAesGcmBoringSsl.kIvSizeInBytes,
    CordAesGcmBoringSsl.kTagSizeInBytes]
  rw [if_pos (by omega)]

/-- Witness for C6: decrypting the empty rope fails as malformed. -/
theorem C6_minimum_length_witness :
    (CordAesGcmBoringSsl.mk (List.replicate 16 0)).Decrypt [] [] =
      .error .malformedCiphertext :=
  C6_minimum_length _ [] [] (by decide)

/-- C7: every successful `Encrypt` of an N-byte plaintext returns a frame
of exactly N + 28 bytes, structured as the 12-byte nonce, then an N-byte
ciphertext body (length equal to the plaintext length, no padding), then
the 16-byte authentication tag. -/
theorem C7_frame_shape (e : CordAesGcmBoringSsl) (nonce : Bytes) (p : Rope)
    (ad : Bytes) (f : Bytes) (hn : nonce.length = 12)
    (henc : e.Encrypt nonce p ad = .ok f) :
    f.length = (ropeBytes p).length + 28 ∧
    f = nonce ++ (encryptBody e.key nonce (ropeBytes p) ++
        gcmTag e.key nonce ad (encryptBody e.key nonce (ropeBytes p))) ∧
    (encryptBody e.key nonce (ropeBytes p)).length = (ropeBytes p).length ∧
    (gcmTag e.key nonce ad (encryptBody e.key nonce (ropeBytes p))).length = 16 := by
  have hf : f = e.EncryptFrame nonce p ad := by
    simp only [CordAesGcmBoringSsl.Encrypt, Except.ok.injEq] at henc
    exact henc.symm
  subst hf
  refine ⟨?_, rfl, encryptBody_length _ _ _, gcmTag_length _ _ _ _⟩
  show (nonce ++ (encryptBody e.key nonce (ropeBytes p) ++
      gcmTag e.key nonce ad (encryptBody e.key nonce (ropeBytes p)))).length = _
  rw [CordAesGcmBoringSsl.frame_length _ hn (gcmTag_length _ _ _ _),
    encryptBody_length]

/-- Witness for C7 on a 3-byte plaintext: the frame has 31 bytes. -/
theorem C7_frame_shape_witness :
    ((CordAesGcmBoringSsl.mk (List.replicate 16 9)).EncryptFrame
      (List.replicate 12 4) [[1, 2], [3]] [8]).length =
      (ropeBytes [[1, 2], [3]]).length + 28 :=
  (C7_frame_shape (CordAesGcmBoringSsl.mk (List.replicate 16 9))
    (List.replicate 12 4) [[1, 2], [3]] [8] _ (by decide) rfl).1

/-- C8: chunk boundaries never affect the bytes: two ropes with the same
logical byte sequence encrypt (same engine, nonce, associated data) to
byte-identical frames, two ropes with the same logical byte sequence
decrypt identically, and the two frames decrypt to the identical
plaintext result. -/
theorem C8_rope_shape_independence (e : CordAesGcmBoringSsl) (nonce ad : Bytes)
    (r₁ r₂ c₁ c₂ : Rope) (hr : ropeBytes r₁ = ropeBytes r₂)
    (hc : ropeBytes c₁ = ropeBytes c₂) :
    e.Encrypt nonce r₁ ad = e.Encrypt nonce r₂ ad ∧
    e.Decrypt c₁ ad = e.Decrypt c₂ ad ∧
    e.Decrypt [e.EncryptFrame nonce r₁ ad] ad =
      e.Decrypt [e.EncryptFrame nonce r₂ ad] ad := by
  have hframe : e.EncryptFrame nonce r₁ ad = e.EncryptFrame nonce r₂ ad := by
    simp only [CordAesGcmBoringSsl.EncryptFrame, hr]
  exact ⟨by simp only [CordAesGcmBoringSsl.Encrypt, hframe],
    by simp only [CordAesGcmBoringSsl.Decrypt, hc],
    by rw [hframe]⟩

/-- Witness for C8: one 3-byte chunk versus three 1-byte chunks. -/
theorem C8_rope_shape_independence_witness :
    (CordAesGcmBoringSsl.mk (List.replicate 32 2)).Encrypt (List.replicate 12 6)
        [[1, 2, 3]] [4] =
      (CordAesGcmBoringSsl.mk (List.replicate 32 2)).Encrypt (List.replicate 12 6)
        [[1], [2], [3]] [4] :=
  (C8_rope_shape_independence (CordAesGcmBoringSsl.mk (List.replicate 32 2))
    (List.replicate 12 6) [4] [[1, 2, 3]] [[1], [2], [3]] [] []
    (by decide) rfl).1

/-- C1: round trip.  For every key of exactly 16 or 32 bytes, every
plaintext rope (including the empty one), every associated data and every
12-byte nonce, decrypting the frame produced by `Encrypt` with the same
engine and associated data returns exactly the original plaintext bytes. -/
theorem C1_round_trip (key nonce : Bytes) (p : Rope) (ad : Bytes)
    (e : CordAesGcmBoringSsl) (f : Bytes)
    (hk : key.length = 16 ∨ key.length = 32)
    (hnew : CordAesGcmBoringSsl.New key = .ok e)
    (hn : nonce.length = 12)
    (henc : e.Encrypt nonce p ad = .ok f) :
    e.Decrypt [f] ad = .ok (ropeBytes p) := by
  have hkey : e.key = key := by
    simp only [CordAesGcmBoringSsl.New, if_pos hk, Except.ok.injEq] at hnew
    rw [← hnew]
  have hf : f = e.EncryptFrame nonce p ad := by
    simp only [CordAesGcmBoringSsl.Encrypt, Except.ok.injEq] at henc
    exact henc.symm
  subst hf
  show e.Decrypt [nonce ++ (encryptBody e.key nonce (ropeBytes p) ++
      gcmTag e.key nonce ad (encryptBody e.key nonce (ropeBytes p)))] ad = _
  rw [CordAesGcmBoringSsl.Decrypt_frame_eq e _ _ ad hn (gcmTag_length _ _ _ _)]
  rw [if_pos rfl, decryptBody_encryptBody]

/-- Witness for C1: a 16-byte key, a two-chunk plaintext, nonempty
associated data. -/
theorem C1_round_trip_witness :
    (CordAesGcmBoringSsl.mk (List.replicate 16 1)).Decrypt
      [(CordAesGcmBoringSsl.mk (List.replicate 16 1)).EncryptFrame
        (List.replicate 12 2) [[10, 20], [30]] [5, 6]] [5, 6] =
      .ok (ropeBytes [[10, 20], [30]]) :=
  C1_round_trip (List.replicate 16 1) (List.replicate 12 2) [[10, 20], [30]]
    [5, 6] (CordAesGcmBoringSsl.mk (List.replicate 16 1)) _
    (Or.inl (by decide)) (by decide) (by decide) rfl

/-- C2: whenever the recomputed authentication tag differs from the tag
extracted from the frame, `Decrypt` returns `Error(AuthenticationFailure)`;
the candidate plaintext is not part of the result, and in this pure model
the result is the only value released to the caller. -/
theorem C2_tag_mismatch_releases_nothing (e : CordAesGcmBoringSsl) (c : Rope)
    (ad : Bytes) (hlen : ¬(ropeBytes c).length < 28)
    (hmis : gcmTag e.key (CordAesGcmBoringSsl.parseNonce (ropeBytes c)) ad
        (CordAesGcmBoringSsl.parseBody (ropeBytes c)) ≠
      CordAesGcmBoringSsl.parseTagBytes (ropeBytes c)) :
    e.Decrypt c ad = .error .authenticationFailure := by
  simp only [CordAesGcmBoringSsl.Decrypt, CordAesGcmBoringSsl.kIvSizeInBytes,
    CordAesGcmBoringSsl.kTagSizeInBytes]
  rw [if_neg (by omega), if_neg hmis]

/-- Witness for C2: 28 zero bytes are a long-enough frame whose stored
all-zero tag cannot match the recomputed tag. -/
theorem C2_tag_mismatch_releases_nothing_witness :
    (CordAesGcmBoringSsl.mk (List.replicate 16 3)).Decrypt
      [List.replicate 28 0] [] = .error .authenticationFailure :=
  C2_tag_mismatch_releases_nothing (CordAesGcmBoringSsl.mk (List.replicate 16 3))
    [List.replicate 28 0] [] (by decide) (by decide)

/-- C4: associated-data binding.  Decrypting `Encrypt(p, a1)` with
associated data `a2 ≠ a1` (well-formed byte sequences) under the same
engine returns `Error(AuthenticationFailure)`. -/
theorem C4_associated_data_binding (e : CordAesGcmBoringSsl) (nonce : Bytes)
    (p : Rope) (a₁ a₂ : Bytes) (f : Bytes)
    (hn : nonce.length = 12) (hvn : ValidBytes nonce)
    (hvp : ValidBytes (ropeBytes p)) (hv₁ : ValidBytes a₁) (hv₂ : ValidBytes a₂)
    (hne : a₁ ≠ a₂)
    (henc : e.Encrypt nonce p a₁ = .ok f) :
    e.Decrypt [f] a₂ = .error .authenticationFailure := by
  have hf : f = e.EncryptFrame nonce p a₁ := by
    simp only [CordAesGcmBoringSsl.Encrypt, Except.ok.injEq] at henc
    exact henc.symm
  subst hf
  have hbv : ValidBytes (encryptBody e.key nonce (ropeBytes p)) :=
    encryptBody_valid _ _ hvp
  have hneq : gcmTag e.key nonce a₂ (encryptBody e.key nonce (ropeBytes p)) ≠
      gcmTag e.key nonce a₁ (encryptBody e.key nonce (ropeBytes p)) := by
    intro heq
    exact hne (gcmTag_inj hvn hvn hv₂ hv₁ hbv hbv heq).2.1.symm
  show e.Decrypt [nonce ++ (encryptBody e.key nonce (ropeBytes p) ++
      gcmTag e.key nonce a₁ (encryptBody e.key nonce (ropeBytes p)))] a₂ = _
  rw [CordAesGcmBoringSsl.Decrypt_frame_eq e _ _ a₂ hn (gcmTag_length _ _ _ _)]
  rw [if_neg hneq]

/-- Witness for C4: same frame, associated data `[1]` at encryption and
`[2]` at decryption. -/
theorem C4_associated_data_binding_witness :
    (CordAesGcmBoringSsl.mk (List.replicate 16 4)).Decrypt
      [(CordAesGcmBoringSsl.mk (List.replicate 16 4)).EncryptFrame
        (List.replicate 12 5) [[9]] [1]] [2] = .error .authenticationFailure :=
  C4_associated_data_binding (CordAesGcmBoringSsl.mk (List.replicate 16 4))
    (List.replicate 12 5) [[9]] [1] [2] _ (by decide) (by decide) (by decide)
    (by decide) (by decide) (by decide) rfl

/-- C3: tamper detection.  Flipping any single bit of a frame produced by
`Encrypt` — a bit of the 12-byte nonce, of the ciphertext body, or of the
16-byte tag — makes `Decrypt` under the same engine and associated data
return `Error(AuthenticationFailure)` (inputs are well-formed byte
sequences; a byte has bit positions 0..7). -/
theorem C3_tamper_detection (e : CordAesGcmBoringSsl) (nonce : Bytes) (p : Rope)
    (ad : Bytes) (f : Bytes) (i j : Nat)
    (hn : nonce.length = 12) (hvn : ValidBytes nonce)
    (hvp : ValidBytes (ropeBytes p)) (hva : ValidBytes ad)
    (henc : e.Encrypt nonce p ad = .ok f)
    (hi : i < f.length) (hj : j < 8) :
    e.Decrypt [flipBit f i j] ad = .error .authenticationFailure := by
  have hf : f = e.EncryptFrame nonce p ad := by
    simp only [CordAesGcmBoringSsl.Encrypt, Except.ok.injEq] at henc
    exact henc.symm
  subst hf
  simp only [CordAesGcmBoringSsl.EncryptFrame] at hi ⊢
  set B := encryptBody e.key nonce (ropeBytes p) with hB
  set T := gcmTag e.key nonce ad B with hT
  have hTlen : T.length = 16 := by rw [hT]; exact gcmTag_length _ _ _ _
  have hBv : ValidBytes B := by rw [hB]; exact encryptBody_valid _ _ hvp
  rw [CordAesGcmBoringSsl.frame_length B hn hTlen] at hi
  by_cases h1 : i < 12
  · -- the flipped bit is in the nonce
    have hilt : i < nonce.length := by omega
    rw [flipBit_append_left (B ++ T) j hilt]
    have hn' : (flipBit nonce i j).length = 12 := by rw [flipBit_length]; exact hn
    rw [CordAesGcmBoringSsl.Decrypt_frame_eq e B T ad hn' hTlen]
    have hneq : gcmTag e.key (flipBit nonce i j) ad B ≠ T := by
      intro heq
      rw [hT] at heq
      exact flipBit_ne j hilt
        (gcmTag_inj (flipBit_valid hj nonce i hvn) hvn hva hva hBv hBv heq).1
    rw [if_neg hneq]
  by_cases h2 : i < 12 + B.length
  · -- the flipped bit is in the ciphertext body
    have hi12 : i = nonce.length + (i - 12) := by omega
    rw [hi12, flipBit_append_right nonce (i - 12) j]
    have hkb : i - 12 < B.length := by omega
    rw [flipBit_append_left T j hkb]
    rw [CordAesGcmBoringSsl.Decrypt_frame_eq e _ T ad hn hTlen]
    have hneq : gcmTag e.key nonce ad (flipBit B (i - 12) j) ≠ T := by
      intro heq
      rw [hT] at heq
      exact flipBit_ne j hkb
        (gcmTag_inj hvn hvn hva hva (flipBit_valid hj B _ hBv) hBv heq).2.2
    rw [if_neg hneq]
  · -- the flipped bit is in the tag
    have hit : i = (nonce ++ B).length + (i - (12 + B.length)) := by
      simp only [List.length_append, hn]; omega
    rw [← List.append_assoc, hit, flipBit_append_right (nonce ++ B) _ j,
      List.append_assoc]
    have hkt : i - (12 + B.length) < T.length := by omega
    have hTflen : (flipBit T (i - (12 + B.length)) j).length = 16 := by
      rw [flipBit_length]; exact hTlen
    rw [CordAesGcmBoringSsl.Decrypt_frame_eq e B _ ad hn hTflen]
    have hneq : gcmTag e.key nonce ad B ≠ flipBit T (i - (12 + B.length)) j := by
      intro heq
      have hfix : flipBit T (i - (12 + B.length)) j = T := by rw [← heq, hT]
      exact flipBit_ne j hkt hfix
    rw [if_neg hneq]

/-- Witness for C3: flipping bit 0 of byte 0 (a nonce byte) of a concrete
frame makes decryption fail. -/
theorem C3_tamper_detection_witness :
    (CordAesGcmBoringSsl.mk (List.replicate 32 8)).Decrypt
      [flipBit ((CordAesGcmBoringSsl.mk (List.replicate 32 8)).EncryptFrame
        (List.replicate 12 7) [[11, 22]] [3]) 0 0] [3] =
      .error .authenticationFailure :=
  C3_tamper_detection (CordAesGcmBoringSsl.mk (List.replicate 32 8))
    (List.replicate 12 7) [[11, 22]] [3] _ 0 0 (by decide) (by decide)
    (by decide) (by decide) rfl (by decide) (by decide)

/-- C9: concrete scenario.  With the engine built from 32 zero key bytes,
encrypting the 5-byte plaintext "hello" (`[104, 101, 108, 108, 111]`) with
associated data "ctx" (`[99, 116, 120]`) succeeds and produces a 33-byte
frame; decrypting that frame with "ctx" returns "hello"; decrypting it
with "wrong" (`[119, 114, 111, 110, 103]`) fails with
`AuthenticationFailure`. -/
theorem C9_concrete_scenario :
    CordAesGcmBoringSsl.New (List.replicate 32 0) = .ok ⟨List.replicate 32 0⟩ ∧
    (CordAesGcmBoringSsl.mk (List.replicate 32 0)).Encrypt (List.replicate 12 0)
        [[104, 101, 108, 108, 111]] [99, 116, 120] =
      .ok ((CordAesGcmBoringSsl.mk (List.replicate 32 0)).EncryptFrame
        (List.replicate 12 0) [[104, 101, 108, 108, 111]] [99, 116, 120]) ∧
    ((CordAesGcmBoringSsl.mk (List.replicate 32 0)).EncryptFrame
        (List.replicate 12 0) [[104, 101, 108, 108, 111]] [99, 116, 120]).length
      = 33 ∧
    (CordAesGcmBoringSsl.mk (List.replicate 32 0)).Decrypt
        [(CordAesGcmBoringSsl.mk (List.replicate 32 0)).EncryptFrame
          (List.replicate 12 0) [[104, 101, 108, 108, 111]] [99, 116, 120]]
        [99, 116, 120] = .ok [104, 101, 108, 108, 111] ∧
    (CordAesGcmBoringSsl.mk (List.replicate 32 0)).Decrypt
        [(CordAesGcmBoringSsl.mk (List.replicate 32 0)).EncryptFrame
          (List.replicate 12 0) [[104, 101, 108, 108, 111]] [99, 116, 120]]
        [119, 114, 111, 110, 103] = .error .authenticationFailure := by
  refine ⟨by decide, rfl, by decide, by decide, by decide⟩

end Tink
